import Mathlib

/-!
Verification of the statistical kernel of the `pcigale` package.

The definitions below are shallow embeddings of the Python functions in
`src/pcigale/stats/psum.py` (`adjust_errors`, `compute_chi2`, `w_mean_sigma`,
`bin_evenly`) and `src/pcigale/analysis_modules/pdf_analysis/utils.py`
(`gen_pdf`, `save_pdf`).  Numeric data is modelled by exact rationals `ℚ`
(numpy float64 values in the source); the transcendental results
(`np.exp`, `np.sqrt`) live in `ℝ`.  Fallible Python code (raised
exceptions) is modelled with `Except PyErr`.
-/

-- ## Definitions (shallow embedding of the source)

/-- Exceptions raised by the Python code paths that the claims touch. -/
inductive PyErr where
  /-- `ValueError` raised for mismatched array lengths. -/
  | lengthMismatch
  /-- `ValueError` raised by builtin `max()`/`min()` on an empty sequence. -/
  | emptySequence
  /-- `ZeroDivisionError` (integer `0/0`, or `np.average` with zero weight sum). -/
  | zeroDivision
  /-- numpy shape mismatch in `np.average`. -/
  | shapeMismatch
deriving DecidableEq, Repr

/-- `TOLERANCE = 1.e-12` from `psum.py`: threshold under which any flux or
error is considered as 0. -/
abbrev TOLERANCE : ℚ := 1 / 10 ^ 12

/-- Python builtin `sum` over a sequence of numbers (left fold from `0`;
addition on exact rationals is commutative so `List.sum` is the same value). -/
def pysum (l : List ℚ) : ℚ := l.sum

/-- Python builtin `max` over a sequence: `ValueError` on the empty sequence,
otherwise the left fold of binary `max` over the elements. -/
def pymax : List ℚ → Option ℚ
  | [] => none
  | a :: l => some (l.foldl max a)

/-- Python builtin `min` over a sequence. -/
def pymin : List ℚ → Option ℚ
  | [] => none
  | a :: l => some (l.foldl min a)

/-- numpy fancy indexing `obs_errors[obs_fluxes > TOLERANCE]`: the entries of
the error array at the positions where the observed flux exceeds the
tolerance. -/
def selErr (obs_fluxes obs_errors : List ℚ) : List ℚ :=
  ((obs_fluxes.zip obs_errors).filter (fun q => decide (TOLERANCE < q.1))).map Prod.snd

/-- numpy fancy indexing `xs[obs_errors > TOLERANCE]`: the entries of `xs` at
the positions where the observation error exceeds the tolerance (the lockstep
restriction of `compute_chi2`). -/
def restrict (xs obs_errors : List ℚ) : List ℚ :=
  ((xs.zip obs_errors).filter (fun q => decide (TOLERANCE < q.2))).map Prod.fst

/-- The test
`max(obs_fluxes) < TOLERANCE or min(obs_errors[obs_fluxes > TOLERANCE]) < TOLERANCE`
of `compute_chi2` (psum.py lines 474-475).  Python's `or` short-circuits, so
the (possibly empty) `min` is only evaluated when the first disjunct is
false; `max`/`min` of an empty sequence raise `ValueError`. -/
def degenerateCheck (obs_fluxes obs_errors : List ℚ) : Except PyErr Bool :=
  match pymax obs_fluxes with
  | none => .error .emptySequence
  | some mx =>
    if mx < TOLERANCE then .ok true
    else
      match pymin (selErr obs_fluxes obs_errors) with
      | none => .error .emptySequence
      | some mn => .ok (decide (mn < TOLERANCE))

/-- `normalisation_factor = sum(obs_fluxes * model_fluxes) / sum(model_fluxes * model_fluxes)`
(elementwise products, psum.py lines 497-498). -/
def norm_factor (model_fluxes obs_fluxes : List ℚ) : ℚ :=
  pysum (List.zipWith (· * ·) obs_fluxes model_fluxes) /
    pysum (List.zipWith (· * ·) model_fluxes model_fluxes)

/-- `chi2 = sum(np.square((obs_fluxes - norm_model_fluxes) / obs_errors))`
with `norm_model_fluxes = normalisation_factor * model_fluxes`
(psum.py lines 499-501). -/
def chi2_value (nf : ℚ) (model_fluxes obs_fluxes obs_errors : List ℚ) : ℚ :=
  pysum ((List.zipWith (· / ·)
    (List.zipWith (· - ·) obs_fluxes (model_fluxes.map (fun x => nf * x)))
    obs_errors).map (fun x => x ^ 2))

/-- The non-degenerate tail of `compute_chi2` (psum.py lines 480-507),
applied to the already-restricted arrays.  `degrees_of_freedom = len - 1`;
the `degrees_of_freedom == 0` branch is `len = 1`.  When the restriction is
empty, the else-branch divides the builtin-`sum` integer `0` by `0`, a Python
`ZeroDivisionError`. -/
noncomputable def chi2_main (m o e : List ℚ) : Except PyErr (ℚ × ℚ × ℝ) :=
  if m.length = 1 then
    .ok (0, pysum o / pysum m, 1)
  else if m.length = 0 then
    .error .zeroDivision
  else
    .ok (min (chi2_value (norm_factor m o) m o e / ((m.length : ℚ) - 1)) 99,
      norm_factor m o,
      Real.exp (-((chi2_value (norm_factor m o) m o e : ℚ) : ℝ) / 2))

/-- Shallow embedding of `compute_chi2(model_fluxes, obs_fluxes, obs_errors)`
(psum.py lines 429-507).  Returns the `(reduced_chi2, normalisation_factor,
probability)` triple, or the raised exception. -/
noncomputable def compute_chi2 (model_fluxes obs_fluxes obs_errors : List ℚ) :
    Except PyErr (ℚ × ℚ × ℝ) :=
  if model_fluxes.length ≠ obs_fluxes.length ∨ obs_fluxes.length ≠ obs_errors.length then
    .error .lengthMismatch
  else
    match degenerateCheck obs_fluxes obs_errors with
    | .error e => .error e
    | .ok true => .ok (99, 1, 0)
    | .ok false =>
        chi2_main (restrict model_fluxes obs_errors) (restrict obs_fluxes obs_errors)
          (restrict obs_errors obs_errors)

/-- Shallow embedding of
`adjust_errors(flux, error, default_error=0.1, systematic_deviation=0.1)`.
The source copies the error array, replaces every entry below `TOLERANCE` by
`default_error` times that entry, then maps every entry `e` paired with flux
`f` to `sqrt(e**2 + (f * systematic_deviation)**2)`. -/
noncomputable def adjust_errors (flux error : List ℚ)
    (default_error systematic_deviation : ℚ) : Except PyErr (List ℝ) :=
  if flux.length ≠ error.length then .error .lengthMismatch
  else .ok ((flux.zip error).map (fun fe =>
    Real.sqrt (((if fe.2 < TOLERANCE then default_error * fe.2 else fe.2) ^ 2
      + (fe.1 * systematic_deviation) ^ 2 : ℚ) : ℝ)))

/-- `np.average(values, weights=weights)` for 1-D inputs: raises on a shape
mismatch, raises `ZeroDivisionError` when the weights sum to zero, otherwise
returns `sum(w * v) / sum(w)`. -/
def w_mean (values weights : List ℚ) : ℚ :=
  pysum (List.zipWith (· * ·) weights values) / pysum weights

/-- `np.dot(weights, (values - mean) ** 2) / np.sum(weights)`. -/
def w_variance (values weights : List ℚ) : ℚ :=
  pysum (List.zipWith (· * ·) weights
    (values.map (fun v => (v - w_mean values weights) ^ 2))) / pysum weights

/-- Shallow embedding of `w_mean_sigma(values, weights)` (psum.py lines
510-532): `mean = np.average(values, weights=weights)`,
`variance = np.dot(weights, (values - mean)**2) / np.sum(weights)`,
returning `(mean, sqrt(variance))`.  `np.average` raises on mismatched
shapes and raises `ZeroDivisionError` when the weights sum to zero. -/
noncomputable def w_mean_sigma (values weights : List ℚ) : Except PyErr (ℚ × ℝ) :=
  if values.length ≠ weights.length then .error .shapeMismatch
  else if pysum weights = 0 then .error .zeroDivision
  else .ok (w_mean values weights, Real.sqrt ((w_variance values weights : ℚ) : ℝ))

/-- `aleph = n * p + m` with `m = alphap + p * (1 - alphap - betap)` and the
scipy `mstats.mquantiles` defaults `alphap = betap = 0.4`. -/
def scipyAleph (n : ℕ) (p : ℚ) : ℚ :=
  (n : ℚ) * p + (2/5 + p * (1 - 2/5 - 2/5))

/-- `k = floor(aleph.clip(1, n - 1))` of scipy `_quantiles1D`. -/
def scipyK (n : ℕ) (p : ℚ) : ℤ :=
  Int.floor (min (max (scipyAleph n p) 1) ((n : ℚ) - 1))

/-- `gamma = (aleph - k).clip(0, 1)` of scipy `_quantiles1D`. -/
def scipyGamma (n : ℕ) (p : ℚ) : ℚ :=
  min (max (scipyAleph n p - (scipyK n p : ℚ)) 0) 1

/-- `(1 - gamma) * x[k - 1] + gamma * x[k]` of scipy `_quantiles1D`, for the
sorted data `x` of length `n ≥ 2`. -/
def scipyQuantile (x : List ℚ) (n : ℕ) (p : ℚ) : ℚ :=
  (1 - scipyGamma n p) * x.getD (scipyK n p - 1).toNat 0
    + scipyGamma n p * x.getD (scipyK n p).toNat 0

/-- `scipy.stats.mstats.mquantiles(data, prob)` for unmasked 1-D data with
the default `alphap = betap = 0.4`: sort the data; with `n = 0` the result
is masked (never used by `bin_evenly` on the claims' non-empty inputs,
modelled as `[]`), with `n = 1` every quantile is the single value, and
otherwise each probability `p` is interpolated by `_quantiles1D`. -/
def mquantiles (data ps : List ℚ) : List ℚ :=
  if data.length = 0 then []
  else if data.length = 1 then
    ps.map (fun _ => (List.insertionSort (· ≤ ·) data).getD 0 0)
  else ps.map (scipyQuantile (List.insertionSort (· ≤ ·) data) data.length)

/-- `np.digitize(v, bins)` for monotonically non-decreasing `bins` (the
default `right=False`): the index of the bin that `v` falls into, i.e. the
number of boundaries that are `≤ v`. -/
def np_digitize (v : ℚ) (bins : List ℚ) : ℕ :=
  bins.countP (fun b => decide (b ≤ v))

/-- `boundaries = mquantiles(values, np.linspace(0, 1, max_bins + 1))`
(psum.py lines 565-567), for the already-clamped bin count `mb`. -/
def binBoundaries (values : List ℚ) (mb : ℕ) : List ℚ :=
  mquantiles values ((List.range (mb + 1)).map (fun i : ℕ => (i : ℚ) / (mb : ℚ)))

/-- `digitize_boundaries = np.copy(boundaries); digitize_boundaries[-1] += 1`
(psum.py lines 569-572). -/
def digitizeBoundaries (values : List ℚ) (mb : ℕ) : List ℚ :=
  (binBoundaries values mb).dropLast ++
    ((binBoundaries values mb).getLast?.map (fun b => b + 1)).toList

/-- Shallow embedding of `bin_evenly(values, max_bins)` (psum.py lines
535-574): clamp `max_bins` to `len(values)`, compute the quantile
boundaries, bump the last boundary by 1 and digitise the values. -/
def bin_evenly (values : List ℚ) (max_bins : ℕ) : List ℚ × List ℕ :=
  (binBoundaries values (if values.length < max_bins then values.length else max_bins),
   values.map (fun v => np_digitize v
     (digitizeBoundaries values (if values.length < max_bins then values.length else max_bins))))

/-- `np.around`: round half to even (banker's rounding), applied to
`100. * probabilities` in `gen_pdf` before the `astype(int)` conversion. -/
def np_around (q : ℚ) : ℤ :=
  if q - Int.floor q < 1/2 then Int.floor q
  else if 1/2 < q - Int.floor q then Int.floor q + 1
  else if Int.floor q % 2 = 0 then Int.floor q else Int.floor q + 1

/-- The pooled sample built by `gen_pdf` (utils.py lines 59-67): for each
unmasked value (`val is not None`), append `[val] * w` where
`w = np.around(100 * probability)` as an integer; the `if probabilities[val_idx]`
guard skips `w = 0` and Python list repetition is empty for `w ≤ 0`, so the
net replication count is `max(w, 0) = w.toNat`. -/
def pooled_sample (values : List (Option ℚ)) (probabilities : List ℚ) : List ℚ :=
  (values.zip probabilities).foldr (fun vp acc =>
    match vp.1 with
    | none => acc
    | some v => List.replicate (np_around (100 * vp.2)).toNat v ++ acc) []

/-- Outcome of the external `scipy.stats.gaussian_kde` fit on the pooled
sample: either a raised numerical failure (`LinAlgError` or `ValueError`,
the exceptions caught by `gen_pdf`), or a fitted density evaluated
pointwise on the grid.  scipy is outside this repository, so the claims
quantify over this oracle. -/
inductive KdeFit where
  | fail
  | ok (density : ℚ → ℝ)

/-- Shallow embedding of `gen_pdf(values, probabilities, grid)` (utils.py
lines 23-74): build the pooled sample, try the kernel-density fit, and
return `none` instead of propagating the numerical failure. -/
def gen_pdf (kde : List ℚ → KdeFit) (values : List (Option ℚ))
    (probabilities : List ℚ) (grid : List ℚ) : Option (List ℝ) :=
  match kde (pooled_sample values probabilities) with
  | .fail => none
  | .ok f => some (grid.map f)

/-- `np.linspace(a, b, num)` with the default inclusive endpoint. -/
def np_linspace (a b : ℚ) (num : ℕ) : List ℚ :=
  if num = 0 then []
  else if num = 1 then [a]
  else (List.range num).map (fun i : ℕ => a + (b - a) * (i : ℚ) / ((num : ℚ) - 1))

/-- `PDF_NB_POINTS = 1000` (utils.py line 16). -/
def PDF_NB_POINTS : ℕ := 1000

/-- The externally observable effect of one iteration of the `save_pdf`
loop: either the printed "Can not compute PDF for observation <...> and
variable <...>" report, or the written FITS table. -/
inductive PdfAction where
  | skipReport (obsid var_name : String)
  | writeTable (obsid var_name : String) (grid : List ℚ) (density : List ℝ)

/-- One iteration of the `save_pdf` loop (utils.py lines 113-127): build the
1000-point grid spanning the unmasked values, call `gen_pdf`, and either
report the skip (`pdf_prob is None`) or write the table. -/
def save_pdf_one (kde : List ℚ → KdeFit) (obsid var_name : String)
    (values : List (Option ℚ)) (likelihood : List ℚ) : PdfAction :=
  match gen_pdf kde values likelihood
    (np_linspace ((pymin (values.filterMap id)).getD 0)
      ((pymax (values.filterMap id)).getD 0) PDF_NB_POINTS) with
  | none => .skipReport obsid var_name
  | some d => .writeTable obsid var_name
      (np_linspace ((pymin (values.filterMap id)).getD 0)
        ((pymax (values.filterMap id)).getD 0) PDF_NB_POINTS) d

/-- `save_pdf(obsid, analysed_variables, model_variables, likelihood)`
(utils.py lines 94-127): loop over the analysed variables (paired with
their value columns of `model_variables`) and perform one action each; the
run continues whether or not each PDF could be computed. -/
def save_pdf (kde : List ℚ → KdeFit) (obsid : String)
    (analysed_variables : List String)
    (model_variable_columns : List (List (Option ℚ)))
    (likelihood : List ℚ) : List PdfAction :=
  (analysed_variables.zip model_variable_columns).map
    (fun vc => save_pdf_one kde obsid vc.1 vc.2 likelihood)

-- ## Theorems

theorem foldl_max_mem (a : ℚ) (l : List ℚ) : l.foldl max a ∈ a :: l := by
  induction l generalizing a with
  | nil => simp
  | cons b t ih =>
    have h := ih (max a b)
    show List.foldl max (max a b) t ∈ a :: b :: t
    rcases List.mem_cons.mp h with h1 | h1
    · rw [h1]
      rcases max_choice a b with h2 | h2 <;> rw [h2]
      · exact List.mem_cons_self _ _
      · exact List.mem_cons.mpr (Or.inr (List.mem_cons_self _ _))
    · exact List.mem_cons.mpr (Or.inr (List.mem_cons.mpr (Or.inr h1)))

theorem le_foldl_max (a : ℚ) (l : List ℚ) : ∀ x ∈ a :: l, x ≤ l.foldl max a := by
  induction l generalizing a with
  | nil => intro x hx; simp at hx; simp [hx]
  | cons b t ih =>
    intro x hx
    rcases List.mem_cons.mp hx with rfl | hx1
    · exact le_trans (le_max_left x b) (ih (max x b) _ (List.mem_cons_self _ _))
    · rcases List.mem_cons.mp hx1 with rfl | hx2
      · exact le_trans (le_max_right a x) (ih (max a x) _ (List.mem_cons_self _ _))
      · exact ih (max a b) _ (List.mem_cons.mpr (Or.inr hx2))

theorem foldl_min_mem (a : ℚ) (l : List ℚ) : l.foldl min a ∈ a :: l := by
  induction l generalizing a with
  | nil => simp
  | cons b t ih =>
    have h := ih (min a b)
    show List.foldl min (min a b) t ∈ a :: b :: t
    rcases List.mem_cons.mp h with h1 | h1
    · rw [h1]
      rcases min_choice a b with h2 | h2 <;> rw [h2]
      · exact List.mem_cons_self _ _
      · exact List.mem_cons.mpr (Or.inr (List.mem_cons_self _ _))
    · exact List.mem_cons.mpr (Or.inr (List.mem_cons.mpr (Or.inr h1)))

theorem pymax_eq_some (l : List ℚ) (h : l ≠ []) : ∃ M, pymax l = some M := by
  cases l with
  | nil => exact absurd rfl h
  | cons a t => exact ⟨t.foldl max a, rfl⟩

theorem pymax_mem {l : List ℚ} {M : ℚ} (h : pymax l = some M) : M ∈ l := by
  cases l with
  | nil => simp [pymax] at h
  | cons a t =>
    simp only [pymax, Option.some.injEq] at h
    exact h ▸ foldl_max_mem a t

theorem le_pymax {l : List ℚ} {M x : ℚ} (h : pymax l = some M) (hx : x ∈ l) : x ≤ M := by
  cases l with
  | nil => simp at hx
  | cons a t =>
    simp only [pymax, Option.some.injEq] at h
    exact h ▸ le_foldl_max a t x hx

theorem pymin_eq_some (l : List ℚ) (h : l ≠ []) : ∃ m, pymin l = some m := by
  cases l with
  | nil => exact absurd rfl h
  | cons a t => exact ⟨t.foldl min a, rfl⟩

theorem pymin_mem {l : List ℚ} {m : ℚ} (h : pymin l = some m) : m ∈ l := by
  cases l with
  | nil => simp [pymin] at h
  | cons a t =>
    simp only [pymin, Option.some.injEq] at h
    exact h ▸ foldl_min_mem a t

theorem exists_zip_pair_left {α β : Type} (l1 : List α) (l2 : List β)
    (hlen : l1.length = l2.length) {a : α} (ha : a ∈ l1) :
    ∃ b, (a, b) ∈ l1.zip l2 := by
  induction l1 generalizing l2 with
  | nil => simp at ha
  | cons x t ih =>
    cases l2 with
    | nil => simp at hlen
    | cons y u =>
      rcases List.mem_cons.mp ha with rfl | hat
      · exact ⟨y, List.mem_cons_self _ _⟩
      · obtain ⟨b, hb⟩ := ih u (by simpa using hlen) hat
        exact ⟨b, List.mem_cons.mpr (Or.inr hb)⟩

theorem exists_zip_pair_right {α β : Type} (l1 : List α) (l2 : List β)
    (hlen : l1.length = l2.length) {b : β} (hb : b ∈ l2) :
    ∃ a, (a, b) ∈ l1.zip l2 := by
  induction l1 generalizing l2 with
  | nil => cases l2 with
    | nil => simp at hb
    | cons y u => simp at hlen
  | cons x t ih =>
    cases l2 with
    | nil => simp at hb
    | cons y u =>
      rcases List.mem_cons.mp hb with rfl | hbu
      · exact ⟨x, List.mem_cons_self _ _⟩
      · obtain ⟨a, ha⟩ := ih u (by simpa using hlen) hbu
        exact ⟨a, List.mem_cons.mpr (Or.inr ha)⟩

theorem selErr_ne_nil {obs err : List ℚ} (hlen : obs.length = err.length)
    {o : ℚ} (ho : o ∈ obs) (hto : TOLERANCE < o) : selErr obs err ≠ [] := by
  obtain ⟨e, he⟩ := exists_zip_pair_left obs err hlen ho
  have hmem : (o, e) ∈ (obs.zip err).filter (fun q => decide (TOLERANCE < q.1)) :=
    List.mem_filter.mpr ⟨he, by simpa using hto⟩
  have : e ∈ selErr obs err := List.mem_map.mpr ⟨(o, e), hmem, rfl⟩
  exact List.ne_nil_of_mem this

theorem restrict_ne_nil {xs err : List ℚ} (hlen : xs.length = err.length)
    {e : ℚ} (he : e ∈ err) (hte : TOLERANCE < e) : restrict xs err ≠ [] := by
  obtain ⟨a, ha⟩ := exists_zip_pair_right xs err hlen he
  have hmem : (a, e) ∈ (xs.zip err).filter (fun q => decide (TOLERANCE < q.2)) :=
    List.mem_filter.mpr ⟨ha, by simpa using hte⟩
  have : a ∈ restrict xs err := List.mem_map.mpr ⟨(a, e), hmem, rfl⟩
  exact List.ne_nil_of_mem this

theorem compute_chi2_nondegenerate (model obs err : List ℚ)
    (hlen1 : model.length = obs.length) (hlen2 : obs.length = err.length)
    (hcheck : degenerateCheck obs err = .ok false) :
    compute_chi2 model obs err =
      chi2_main (restrict model err) (restrict obs err) (restrict err err) := by
  unfold compute_chi2
  rw [if_neg (by simp [hlen1, hlen2]), hcheck]

theorem degenerateCheck_eq_false {obs err : List ℚ} (hlen : obs.length = err.length)
    {M : ℚ} (hM : pymax obs = some M) (hMgt : TOLERANCE < M)
    (herr : ∀ e ∈ selErr obs err, TOLERANCE ≤ e) :
    degenerateCheck obs err = .ok false := by
  have hne : selErr obs err ≠ [] := selErr_ne_nil hlen (pymax_mem hM) hMgt
  obtain ⟨mn, hmn⟩ := pymin_eq_some _ hne
  have hmnge : TOLERANCE ≤ mn := herr mn (pymin_mem hmn)
  simp only [degenerateCheck, hM]
  rw [if_neg (not_lt.mpr hMgt.le), hmn]
  simp only [decide_eq_false (not_lt.mpr hmnge)]

/-- C2.  Flux Comparator degenerate sentinel: for every equal-length input
triple, if the maximum observation flux is below the tolerance `1e-12`, or
the minimum error among the fluxes above tolerance is below tolerance, then
`compute_chi2` returns exactly `(reduced_chi2 = 99, normalisation_factor = 1,
probability = 0)`. -/
theorem compute_chi2_degenerate_sentinel (model obs err : List ℚ)
    (hlen1 : model.length = obs.length) (hlen2 : obs.length = err.length)
    (hdeg : (∃ M, pymax obs = some M ∧ M < TOLERANCE) ∨
            (∃ mn, pymin (selErr obs err) = some mn ∧ mn < TOLERANCE)) :
    compute_chi2 model obs err = .ok (99, 1, 0) := by
  have hcheck : degenerateCheck obs err = .ok true := by
    rcases hdeg with ⟨M, hM, hMlt⟩ | ⟨mn, hmn, hmnlt⟩
    · simp only [degenerateCheck, hM]
      rw [if_pos hMlt]
    · obtain ⟨M, hM⟩ := pymax_eq_some obs (by
        intro h
        subst h
        simp [selErr, pymin] at hmn)
      simp only [degenerateCheck, hM]
      by_cases hMlt : M < TOLERANCE
      · rw [if_pos hMlt]
      · rw [if_neg hMlt]
        simp only [hmn, decide_eq_true hmnlt]
  unfold compute_chi2
  rw [if_neg (by simp [hlen1, hlen2]), hcheck]

/-- Witness for C2: `obs = [0, 0, 0]` with model fluxes `[5, 6, 7]` and
errors `[1, 2, 3]` yields exactly `(99, 1, 0)`. -/
theorem compute_chi2_degenerate_sentinel_witness :
    compute_chi2 [5, 6, 7] [0, 0, 0] [1, 2, 3] = .ok (99, 1, 0) :=
  compute_chi2_degenerate_sentinel [5, 6, 7] [0, 0, 0] [1, 2, 3]
    (by simp) (by simp) (Or.inl ⟨0, by norm_num [pymax]⟩)

/-- C3.  Flux Comparator degrees-of-freedom-zero case: for every
non-degenerate equal-length input triple in which exactly one filter remains
after dropping filters with error at or below tolerance, `compute_chi2`
returns `reduced_chi2 = 0`, `normalisation_factor = sum(obs) / sum(model)`
(sums over the remaining filters) and `probability = 1`. -/
theorem compute_chi2_dof_zero (model obs err : List ℚ)
    (hlen1 : model.length = obs.length) (hlen2 : obs.length = err.length)
    (hcheck : degenerateCheck obs err = .ok false)
    (hone : (restrict model err).length = 1) :
    compute_chi2 model obs err =
      .ok (0, pysum (restrict obs err) / pysum (restrict model err), 1) := by
  rw [compute_chi2_nondegenerate model obs err hlen1 hlen2 hcheck]
  unfold chi2_main
  rw [if_pos hone]

/-- Witness for C3: `model = [2.0]`, `obs = [4.0]`, `error = [0.5]` yields
`(0, 2.0, 1)`. -/
theorem compute_chi2_dof_zero_witness :
    compute_chi2 [2] [4] [1/2] = .ok (0, 2, 1) := by
  have h := compute_chi2_dof_zero [2] [4] [1/2] (by simp) (by simp)
    (by norm_num [degenerateCheck, pymax, pymin, selErr, List.filter])
    (by norm_num [restrict, List.filter])
  rw [h]
  norm_num [restrict, pysum, List.filter]

/-- C1 counterexample.  The claim's non-degeneracy hypothesis reads "max
observed flux at least tolerance and every error among above-tolerance
fluxes at least tolerance".  With `model = [1, 1]`,
`obs = [TOLERANCE, TOLERANCE]` and `err = [1, 1]` these hypotheses hold and
two filters survive the restriction (so `dof = 1 > 0`), yet `compute_chi2`
does not return the claimed formulas: the maximum observed flux equals the
tolerance exactly, so `min(obs_errors[obs_fluxes > TOLERANCE])` is the
minimum of an empty selection and the code raises `ValueError` instead of
returning. -/
theorem compute_chi2_lockstep_claim_cex :
    (([1, 1] : List ℚ).length = ([TOLERANCE, TOLERANCE] : List ℚ).length ∧
      ([TOLERANCE, TOLERANCE] : List ℚ).length = ([1, 1] : List ℚ).length) ∧
    (∃ M, pymax [TOLERANCE, TOLERANCE] = some M ∧ TOLERANCE ≤ M) ∧
    (∀ e ∈ selErr [TOLERANCE, TOLERANCE] [1, 1], TOLERANCE ≤ e) ∧
    1 < (restrict [1, 1] ([1, 1] : List ℚ)).length ∧
    compute_chi2 [1, 1] [TOLERANCE, TOLERANCE] [1, 1] = .error .emptySequence := by
  refine ⟨⟨by simp, by simp⟩, ⟨TOLERANCE, by norm_num [pymax], le_refl _⟩, ?_, ?_, ?_⟩
  · intro e he
    simp [selErr, List.filter] at he
  · norm_num [restrict, List.filter]
  · unfold compute_chi2
    rw [if_neg (by simp)]
    have hcheck : degenerateCheck [TOLERANCE, TOLERANCE] [1, 1] =
        .error .emptySequence := by
      norm_num [degenerateCheck, pymax, pymin, selErr, List.filter]
    rw [hcheck]

/-- C1 (amended).  Flux Comparator general case, with the non-degeneracy
hypothesis strengthened from "max observed flux at least tolerance" to
"strictly above tolerance" (when the maximum equals the tolerance exactly
the code raises on an empty `min`): for every equal-length triple whose
maximum observed flux is strictly above the tolerance and whose every error
among above-tolerance fluxes is at least the tolerance, if more than one
filter survives the restriction to errors above tolerance then
`compute_chi2` returns
`normalisation_factor = sum(obs * model) / sum(model * model)`,
`reduced_chi2 = min(chi2 / dof, 99)` and `probability = exp(-chi2 / 2)`
computed from the uncapped `chi2`, all over the restricted arrays. -/
theorem compute_chi2_lockstep_general (model obs err : List ℚ)
    (hlen1 : model.length = obs.length) (hlen2 : obs.length = err.length)
    (hmax : ∃ M, pymax obs = some M ∧ TOLERANCE < M)
    (herr : ∀ e ∈ selErr obs err, TOLERANCE ≤ e)
    (hdof : 1 < (restrict model err).length) :
    compute_chi2 model obs err =
      .ok (min (chi2_value (norm_factor (restrict model err) (restrict obs err))
              (restrict model err) (restrict obs err) (restrict err err) /
              (((restrict model err).length : ℚ) - 1)) 99,
          norm_factor (restrict model err) (restrict obs err),
          Real.exp (-((chi2_value (norm_factor (restrict model err) (restrict obs err))
              (restrict model err) (restrict obs err) (restrict err err) : ℚ) : ℝ) / 2)) := by
  obtain ⟨M, hM, hMgt⟩ := hmax
  rw [compute_chi2_nondegenerate model obs err hlen1 hlen2
    (degenerateCheck_eq_false hlen2 hM hMgt herr)]
  unfold chi2_main
  rw [if_neg (by omega), if_neg (by omega)]

/-- Witness for C1: `model = [1, 2]`, `obs = [2, 3]`, `err = [1, 1]` gives
`normalisation_factor = 8/5`, `chi2 = 1/5`, `reduced_chi2 = 1/5` and
`probability = exp(-1/10)`. -/
theorem compute_chi2_lockstep_general_witness :
    compute_chi2 [1, 2] [2, 3] [1, 1] = .ok (1/5, 8/5, Real.exp (-(1/10 : ℝ))) := by
  have h := compute_chi2_lockstep_general [1, 2] [2, 3] [1, 1]
    (by simp) (by simp)
    ⟨3, by norm_num [pymax], by norm_num⟩
    (by
      intro e he
      norm_num [selErr, List.filter] at he
      rw [he]
      norm_num)
    (by norm_num [restrict, List.filter])
  rw [h]
  norm_num [restrict, norm_factor, chi2_value, pysum, List.filter, min_def]

theorem chi2_value_nonneg (nf : ℚ) (m o e : List ℚ) : 0 ≤ chi2_value nf m o e := by
  unfold chi2_value pysum
  apply List.sum_nonneg
  intro x hx
  obtain ⟨y, _, rfl⟩ := List.mem_map.mp hx
  exact sq_nonneg y

/-- C4 counterexample.  `model = [1, 1]`, `obs = [1, 0]`, `err = [0, 1]`
satisfies the claim's hypotheses (some error above tolerance, some observed
flux above tolerance, equal lengths), yet the only filter with an observed
flux above tolerance has error `0 < TOLERANCE`, so the degenerate branch
fires and `compute_chi2` returns probability `0`, which is not in the
half-open interval `(0, 1]`. -/
theorem compute_chi2_range_cex :
    (∃ e ∈ ([0, 1] : List ℚ), TOLERANCE < e) ∧
    (∃ o ∈ ([1, 0] : List ℚ), TOLERANCE < o) ∧
    compute_chi2 [1, 1] [1, 0] [0, 1] = .ok (99, 1, 0) ∧
    (0 : ℝ) ∉ Set.Ioc (0 : ℝ) 1 := by
  refine ⟨⟨1, by simp, by norm_num⟩, ⟨1, by simp, by norm_num⟩, ?_, ?_⟩
  · unfold compute_chi2
    rw [if_neg (by simp)]
    have hcheck : degenerateCheck [1, 0] [0, 1] = .ok true := by
      norm_num [degenerateCheck, pymax, pymin, selErr, List.filter]
    rw [hcheck]
  · simp [Set.mem_Ioc]

/-- C4 (amended).  For all equal-length triples that contain at least one
error above the tolerance and at least one observed flux above the
tolerance, AND that are non-degenerate (every error among above-tolerance
fluxes at least the tolerance — otherwise the degenerate branch returns
probability 0), AND whose restricted model fluxes are not all zero when more
than one filter survives (otherwise the float code divides 0 by 0 and
propagates NaN), `compute_chi2` returns `reduced_chi2 ∈ [0, 99]` and
`probability ∈ (0, 1]`. -/
theorem compute_chi2_range (model obs err : List ℚ)
    (hlen1 : model.length = obs.length) (hlen2 : obs.length = err.length)
    (hobs : ∃ o ∈ obs, TOLERANCE < o)
    (herr : ∃ e ∈ err, TOLERANCE < e)
    (hnondeg : ∀ e ∈ selErr obs err, TOLERANCE ≤ e)
    (_hmodel : 1 < (restrict model err).length →
      pysum (List.zipWith (· * ·) (restrict model err) (restrict model err)) ≠ 0) :
    ∃ rc nf p, compute_chi2 model obs err = .ok (rc, nf, p) ∧
      0 ≤ rc ∧ rc ≤ 99 ∧ 0 < p ∧ p ≤ 1 := by
  obtain ⟨o, ho, hto⟩ := hobs
  obtain ⟨M, hM⟩ := pymax_eq_some obs (List.ne_nil_of_mem ho)
  have hMgt : TOLERANCE < M := lt_of_lt_of_le hto (le_pymax hM ho)
  rw [compute_chi2_nondegenerate model obs err hlen1 hlen2
    (degenerateCheck_eq_false hlen2 hM hMgt hnondeg)]
  obtain ⟨e, he, hte⟩ := herr
  have hne : restrict model err ≠ [] := restrict_ne_nil (hlen1.trans hlen2) he hte
  have hlen0 : (restrict model err).length ≠ 0 := by
    simpa [List.length_eq_zero] using hne
  unfold chi2_main
  by_cases h1 : (restrict model err).length = 1
  · rw [if_pos h1]
    exact ⟨0, _, 1, rfl, le_refl 0, by norm_num, by norm_num, le_refl 1⟩
  · rw [if_neg h1, if_neg hlen0]
    have hchi2 : (0 : ℚ) ≤ chi2_value (norm_factor (restrict model err) (restrict obs err))
        (restrict model err) (restrict obs err) (restrict err err) :=
      chi2_value_nonneg _ _ _ _
    have hdof : (0 : ℚ) < ((restrict model err).length : ℚ) - 1 := by
      have : 2 ≤ (restrict model err).length := by omega
      have : (2 : ℚ) ≤ ((restrict model err).length : ℚ) := by exact_mod_cast this
      linarith
    refine ⟨_, _, _, rfl, ?_, min_le_right _ _, Real.exp_pos _, ?_⟩
    · exact le_min (div_nonneg hchi2 hdof.le) (by norm_num)
    · rw [Real.exp_le_one_iff]
      have : (0 : ℝ) ≤ ((chi2_value (norm_factor (restrict model err) (restrict obs err))
          (restrict model err) (restrict obs err) (restrict err err) : ℚ) : ℝ) := by
        exact_mod_cast hchi2
      linarith

/-- Witness for C4: `model = obs = err = [1, 1]` satisfies all hypotheses and
gives a result in the claimed ranges. -/
theorem compute_chi2_range_witness :
    ∃ rc nf p, compute_chi2 [1, 1] [1, 1] [1, 1] = .ok (rc, nf, p) ∧
      0 ≤ rc ∧ rc ≤ 99 ∧ 0 < p ∧ p ≤ 1 :=
  compute_chi2_range [1, 1] [1, 1] [1, 1] (by simp) (by simp)
    ⟨1, by simp, by norm_num⟩ ⟨1, by simp, by norm_num⟩
    (by
      intro e he
      norm_num [selErr, List.filter] at he
      rw [he]
      norm_num)
    (by
      intro _
      norm_num [restrict, pysum, List.filter])

/-- C10 counterexample.  With `model = [1]`, `obs = [TOLERANCE]`,
`err = [1]` (equal-length, non-empty, with an observed flux at the
tolerance, i.e. "at or above" it), `compute_chi2` neither returns a triple
nor raises the length-mismatch error: the degenerate-case test itself fails,
because `max(obs) = TOLERANCE` is not below the tolerance while the
selection `obs_errors[obs_fluxes > TOLERANCE]` is empty, so Python's `min`
raises `ValueError` on an empty sequence. -/
theorem compute_chi2_totality_cex :
    ([TOLERANCE] : List ℚ) ≠ [] ∧
    (∃ o ∈ ([TOLERANCE] : List ℚ), TOLERANCE ≤ o) ∧
    compute_chi2 [1] [TOLERANCE] [1] = .error .emptySequence ∧
    PyErr.emptySequence ≠ PyErr.lengthMismatch := by
  refine ⟨by simp, ⟨TOLERANCE, by simp, le_refl _⟩, ?_, by simp⟩
  unfold compute_chi2
  rw [if_neg (by simp)]
  have hcheck : degenerateCheck [TOLERANCE] [1] = .error .emptySequence := by
    norm_num [degenerateCheck, pymax, pymin, selErr, List.filter]
  rw [hcheck]

/-- C10 (amended).  For every equal-length triple in which some observed
flux is strictly above the tolerance and some observation error is strictly
above the tolerance, the degenerate-case test evaluates without failing and
`compute_chi2` returns a `(reduced_chi2, normalisation_factor, probability)`
triple (no exception escapes). -/
theorem compute_chi2_totality (model obs err : List ℚ)
    (hlen1 : model.length = obs.length) (hlen2 : obs.length = err.length)
    (hobs : ∃ o ∈ obs, TOLERANCE < o)
    (herr : ∃ e ∈ err, TOLERANCE < e) :
    (∃ b, degenerateCheck obs err = .ok b) ∧
    (∃ r, compute_chi2 model obs err = .ok r) := by
  obtain ⟨o, ho, hto⟩ := hobs
  obtain ⟨M, hM⟩ := pymax_eq_some obs (List.ne_nil_of_mem ho)
  have hMgt : TOLERANCE < M := lt_of_lt_of_le hto (le_pymax hM ho)
  obtain ⟨mn, hmn⟩ := pymin_eq_some _ (selErr_ne_nil hlen2 (pymax_mem hM) hMgt)
  have hcheck : degenerateCheck obs err = .ok (decide (mn < TOLERANCE)) := by
    simp only [degenerateCheck, hM]
    rw [if_neg (not_lt.mpr hMgt.le), hmn]
  refine ⟨⟨_, hcheck⟩, ?_⟩
  by_cases hdeg : mn < TOLERANCE
  · refine ⟨(99, 1, 0), ?_⟩
    unfold compute_chi2
    rw [if_neg (by simp [hlen1, hlen2]), hcheck, decide_eq_true hdeg]
  · have hcheck2 : degenerateCheck obs err = .ok false := by
      rw [hcheck, decide_eq_false hdeg]
    rw [compute_chi2_nondegenerate model obs err hlen1 hlen2 hcheck2]
    obtain ⟨e, he, hte⟩ := herr
    have hne : restrict model err ≠ [] := restrict_ne_nil (hlen1.trans hlen2) he hte
    have hlen0 : (restrict model err).length ≠ 0 := by
      simpa [List.length_eq_zero] using hne
    unfold chi2_main
    by_cases h1 : (restrict model err).length = 1
    · rw [if_pos h1]
      exact ⟨_, rfl⟩
    · rw [if_neg h1, if_neg hlen0]
      exact ⟨_, rfl⟩

/-- Witness for C10: `model = obs = err = [1]`. -/
theorem compute_chi2_totality_witness :
    (∃ b, degenerateCheck [1] [1] = .ok b) ∧
    (∃ r, compute_chi2 [(1 : ℚ)] [1] [1] = .ok r) :=
  compute_chi2_totality [1] [1] [1] (by simp) (by simp)
    ⟨1, by simp, by norm_num⟩ ⟨1, by simp, by norm_num⟩

/-- C5.  Error Adjuster: `adjust_errors` raises a length-mismatch error
whenever the flux and error sequences differ in length; otherwise, for every
index, any raw error below the tolerance `1e-12` is first replaced by
`default_error` (0.1) times that same raw error, and then every error `e`
becomes `sqrt(e^2 + (flux * 0.1)^2)` with the default systematic deviation
0.1; the returned sequence has the same length as the inputs (the inputs,
being immutable Lean lists standing for the copied numpy arrays, are not
mutated). -/
theorem adjust_errors_spec (flux error : List ℚ) :
    (flux.length ≠ error.length →
      adjust_errors flux error (1/10) (1/10) = .error .lengthMismatch) ∧
    (flux.length = error.length →
      adjust_errors flux error (1/10) (1/10) =
        .ok ((flux.zip error).map (fun fe =>
          Real.sqrt (((if fe.2 < TOLERANCE then (1/10) * fe.2 else fe.2) ^ 2
            + (fe.1 * (1/10)) ^ 2 : ℚ) : ℝ))) ∧
      ((flux.zip error).map (fun fe =>
          Real.sqrt (((if fe.2 < TOLERANCE then (1/10) * fe.2 else fe.2) ^ 2
            + (fe.1 * (1/10)) ^ 2 : ℚ) : ℝ))).length = flux.length) := by
  constructor
  · intro hne
    unfold adjust_errors
    rw [if_pos hne]
  · intro heq
    refine ⟨?_, ?_⟩
    · unfold adjust_errors
      rw [if_neg (by simp [heq])]
    · rw [List.length_map, List.length_zip, heq, min_self]

/-- Witness for C5: `flux = [1, 2]`, `error = [0, 3]`.  The zero error is
scaled to `0.1 * 0 = 0` and combined into `sqrt(0 + (1 * 0.1)^2) =
sqrt(1/100)`; the second becomes `sqrt(9 + (2 * 0.1)^2) = sqrt(226/25)`.
A mismatched pair `([1], [])` raises the length-mismatch error. -/
theorem adjust_errors_spec_witness :
    adjust_errors [1, 2] [0, 3] (1/10) (1/10) =
      .ok [Real.sqrt ((1/100 : ℚ) : ℝ), Real.sqrt ((226/25 : ℚ) : ℝ)] ∧
    adjust_errors [1] [] (1/10) (1/10) = .error .lengthMismatch := by
  constructor
  · have h := (adjust_errors_spec [1, 2] [0, 3]).2 (by simp)
    rw [h.1]
    norm_num [List.zip]
  · exact (adjust_errors_spec [1] []).1 (by simp)

/-- C6.  Weighted Statistics: for every value sequence and equal-length
non-negative weight sequence with positive weight sum, `w_mean_sigma`
returns `weighted_mean = sum(w * v) / sum(w)` and
`weighted_std = sqrt(sum(w * (v - mean)^2) / sum(w))`. -/
theorem w_mean_sigma_spec (values weights : List ℚ)
    (hlen : values.length = weights.length)
    (_hnn : ∀ w ∈ weights, 0 ≤ w)
    (hpos : 0 < pysum weights) :
    w_mean_sigma values weights =
      .ok (pysum (List.zipWith (· * ·) weights values) / pysum weights,
        Real.sqrt ((pysum (List.zipWith (· * ·) weights
          (values.map (fun v => (v - w_mean values weights) ^ 2)))
          / pysum weights : ℚ) : ℝ)) := by
  unfold w_mean_sigma
  rw [if_neg (by simp [hlen]), if_neg (ne_of_gt hpos)]
  rfl

/-- Witness for C6: `values = [1, 2, 3]`, `weights = [1, 1, 1]` give
`mean = 2` and `std = sqrt(2/3)`. -/
theorem w_mean_sigma_spec_witness :
    w_mean_sigma [1, 2, 3] [1, 1, 1] = .ok (2, Real.sqrt ((2/3 : ℚ) : ℝ)) := by
  have h := w_mean_sigma_spec [1, 2, 3] [1, 1, 1] (by simp)
    (by
      intro w hw
      norm_num at hw
      rw [hw]
      norm_num)
    (by norm_num [pysum])
  rw [h]
  norm_num [pysum, w_mean]

/-- C7.  Weighted Statistics zero-total-weight: for every value sequence
paired with a zero-sum weight sequence, `w_mean_sigma` fails by raising an
error (numpy's `np.average` raises `ZeroDivisionError`) rather than silently
returning a NaN result. -/
theorem w_mean_sigma_zero_total_weight (values weights : List ℚ)
    (hlen : values.length = weights.length)
    (hzero : pysum weights = 0) :
    w_mean_sigma values weights = .error .zeroDivision := by
  unfold w_mean_sigma
  rw [if_neg (by simp [hlen]), if_pos hzero]

/-- Witness for C7: all-zero weights raise the error. -/
theorem w_mean_sigma_zero_total_weight_witness :
    w_mean_sigma [1, 2] [0, 0] = .error .zeroDivision :=
  w_mean_sigma_zero_total_weight [1, 2] [0, 0] (by simp) (by norm_num [pysum])

theorem getD_mem {x : List ℚ} {i : ℕ} (h : i < x.length) : x.getD i 0 ∈ x := by
  rw [List.getD_eq_getElem x 0 h]
  exact List.getElem_mem h

theorem sorted_getD_zero_le {x : List ℚ} (hs : List.Sorted (· ≤ ·) x)
    {v : ℚ} (hv : v ∈ x) : x.getD 0 0 ≤ v := by
  cases x with
  | nil => cases hv
  | cons a t =>
    rcases List.mem_cons.mp hv with rfl | hvt
    · simp
    · simpa using List.rel_of_sorted_cons hs v hvt

theorem sorted_le_getD_last {x : List ℚ} (hs : List.Sorted (· ≤ ·) x)
    {v : ℚ} (hv : v ∈ x) : v ≤ x.getD (x.length - 1) 0 := by
  induction x with
  | nil => cases hv
  | cons a t ih =>
    cases t with
    | nil =>
      rcases List.mem_cons.mp hv with rfl | h0
      · simp
      · cases h0
    | cons b u =>
      have hstep : (a :: b :: u).getD ((a :: b :: u).length - 1) 0 =
          (b :: u).getD ((b :: u).length - 1) 0 := by
        simp [List.getD]
      rw [hstep]
      have hlast_mem : (b :: u).getD ((b :: u).length - 1) 0 ∈ b :: u :=
        getD_mem (by simp)
      rcases List.mem_cons.mp hv with rfl | hvt
      · exact List.rel_of_sorted_cons hs _ hlast_mem
      · exact ih hs.of_cons hvt

theorem scipyK_bounds (n : ℕ) (p : ℚ) (hn : 2 ≤ n) :
    1 ≤ scipyK n p ∧ scipyK n p ≤ (n : ℤ) - 1 := by
  constructor
  · apply Int.le_floor.mpr
    push_cast
    apply le_min (le_max_right _ _)
    have : (2 : ℚ) ≤ (n : ℚ) := by exact_mod_cast hn
    linarith
  · have h1 : min (max (scipyAleph n p) 1) ((n : ℚ) - 1) ≤ ((n : ℚ) - 1) :=
      min_le_right _ _
    have h2 : ((n : ℚ) - 1) = (((n : ℤ) - 1 : ℤ) : ℚ) := by push_cast; ring
    calc scipyK n p ≤ Int.floor ((n : ℚ) - 1) := Int.floor_le_floor h1
    _ = (n : ℤ) - 1 := by rw [h2, Int.floor_intCast]

theorem scipyGamma_bounds (n : ℕ) (p : ℚ) :
    0 ≤ scipyGamma n p ∧ scipyGamma n p ≤ 1 :=
  ⟨le_min (le_max_right _ _) zero_le_one, min_le_right _ _⟩

theorem scipyQuantile_range {x : List ℚ} (hs : List.Sorted (· ≤ ·) x)
    {n : ℕ} (hn : 2 ≤ n) (hnx : n = x.length) (p : ℚ) :
    x.getD 0 0 ≤ scipyQuantile x n p ∧
      scipyQuantile x n p ≤ x.getD (n - 1) 0 := by
  obtain ⟨hk1, hk2⟩ := scipyK_bounds n p hn
  obtain ⟨hg0, hg1⟩ := scipyGamma_bounds n p
  have hia : (scipyK n p - 1).toNat < x.length := by omega
  have hib : (scipyK n p).toNat < x.length := by omega
  have hA := getD_mem hia
  have hB := getD_mem hib
  have ha0 := sorted_getD_zero_le hs hA
  have hb0 := sorted_getD_zero_le hs hB
  have han := sorted_le_getD_last hs hA
  have hbn := sorted_le_getD_last hs hB
  rw [← hnx] at han hbn
  unfold scipyQuantile
  constructor
  · nlinarith [ha0, hb0, hg0, hg1]
  · nlinarith [han, hbn, hg0, hg1]

theorem scipyQuantile_zero (x : List ℚ) (n : ℕ) (hn : 2 ≤ n) :
    scipyQuantile x n 0 = x.getD 0 0 := by
  have haleph : scipyAleph n 0 = 2/5 := by unfold scipyAleph; ring
  have hclip : min (max (scipyAleph n 0) 1) ((n : ℚ) - 1) = 1 := by
    rw [haleph]
    rw [max_eq_right (by norm_num)]
    apply min_eq_left
    have : (2 : ℚ) ≤ (n : ℚ) := by exact_mod_cast hn
    linarith
  have hk : scipyK n 0 = 1 := by
    unfold scipyK
    rw [hclip]
    exact Int.floor_one
  have hg : scipyGamma n 0 = 0 := by
    unfold scipyGamma
    rw [haleph, hk]
    norm_num
  unfold scipyQuantile
  rw [hk, hg]
  norm_num

theorem scipyQuantile_one (x : List ℚ) (n : ℕ) (hn : 2 ≤ n) :
    scipyQuantile x n 1 = x.getD (n - 1) 0 := by
  have h2 : (2 : ℚ) ≤ (n : ℚ) := by exact_mod_cast hn
  have haleph : scipyAleph n 1 = (n : ℚ) + 3/5 := by unfold scipyAleph; ring
  have hclip : min (max (scipyAleph n 1) 1) ((n : ℚ) - 1) = (n : ℚ) - 1 := by
    rw [haleph]
    rw [max_eq_left (by linarith)]
    apply min_eq_right
    linarith
  have hk : scipyK n 1 = (n : ℤ) - 1 := by
    unfold scipyK
    rw [hclip]
    have : ((n : ℚ) - 1) = (((n : ℤ) - 1 : ℤ) : ℚ) := by push_cast; ring
    rw [this, Int.floor_intCast]
  have hg : scipyGamma n 1 = 1 := by
    unfold scipyGamma
    rw [haleph, hk]
    have : scipyAleph n 1 - (((n : ℤ) - 1 : ℤ) : ℚ) = 8/5 := by
      rw [haleph]; push_cast; ring
    rw [haleph] at this
    rw [this]
    norm_num
  unfold scipyQuantile
  rw [hk, hg]
  have htn : ((n : ℤ) - 1).toNat = n - 1 := by omega
  rw [htn]
  ring

theorem mquantiles_eq_map (data : List ℚ) (hne : data ≠ []) :
    ∃ F : ℚ → ℚ, (∀ ps, mquantiles data ps = ps.map F) ∧
      F 0 = (List.insertionSort (· ≤ ·) data).getD 0 0 ∧
      F 1 = (List.insertionSort (· ≤ ·) data).getD (data.length - 1) 0 ∧
      ∀ p, (List.insertionSort (· ≤ ·) data).getD 0 0 ≤ F p ∧
        F p ≤ (List.insertionSort (· ≤ ·) data).getD (data.length - 1) 0 := by
  have hlen : (List.insertionSort (· ≤ ·) data).length = data.length :=
    List.length_insertionSort _ _
  have h0 : data.length ≠ 0 := by simpa [List.length_eq_zero] using hne
  by_cases h1 : data.length = 1
  · refine ⟨fun _ => (List.insertionSort (· ≤ ·) data).getD 0 0, ?_, rfl, ?_, ?_⟩
    · intro ps
      unfold mquantiles
      rw [if_neg h0, if_pos h1]
    · rw [h1]
    · intro p
      rw [h1]
      exact ⟨le_refl _, le_refl _⟩
  · have h2 : 2 ≤ data.length := by omega
    have hs : List.Sorted (· ≤ ·) (List.insertionSort (· ≤ ·) data) :=
      List.sorted_insertionSort _ _
    refine ⟨scipyQuantile (List.insertionSort (· ≤ ·) data) data.length, ?_, ?_, ?_, ?_⟩
    · intro ps
      unfold mquantiles
      rw [if_neg h0, if_neg h1]
    · exact scipyQuantile_zero _ _ h2
    · exact scipyQuantile_one _ _ h2
    · exact scipyQuantile_range hs h2 hlen.symm


/-- C8.  Binner: for every non-empty value sequence of length `N` and
requested bin count `B ≥ 1`, `bin_evenly` partitions into
`bins = min(B, N)` bins: the boundary sequence has length `bins + 1`, the
assignment sequence has length `N`, every assignment is a 1-indexed bin
number in `[1, bins]` (so never an out-of-range bucket), every value equal
to the maximum is assigned to the last bin, and for `values = [1..10]` with
`max_bins = 5` each of the 5 bins receives exactly 2 elements. -/
theorem bin_evenly_spec :
    (∀ (values : List ℚ) (B : ℕ), values ≠ [] → 1 ≤ B →
      (bin_evenly values B).1.length = min B values.length + 1 ∧
      (bin_evenly values B).2.length = values.length ∧
      (∀ d ∈ (bin_evenly values B).2, 1 ≤ d ∧ d ≤ min B values.length) ∧
      (∀ i, i < values.length → (∀ u ∈ values, u ≤ values.getD i 0) →
        (bin_evenly values B).2.getD i 0 = min B values.length)) ∧
    (∀ b ∈ [1, 2, 3, 4, 5],
      (bin_evenly [1, 2, 3, 4, 5, 6, 7, 8, 9, 10] 5).2.count b = 2) := by
  constructor
  · intro values B hne hB
    have hN : 1 ≤ values.length := by
      have : values.length ≠ 0 := by simpa [List.length_eq_zero] using hne
      omega
    set mb := if values.length < B then values.length else B with hmbdef
    have hmbmin : mb = min B values.length := by
      rw [hmbdef, min_def]
      split_ifs <;> omega
    have hmb1 : 1 ≤ mb := by
      rw [hmbdef]
      split_ifs <;> omega
    obtain ⟨F, hmap, hF0, hF1, hFr⟩ := mquantiles_eq_map values hne
    have hperm : List.Perm (List.insertionSort (· ≤ ·) values) values :=
      List.perm_insertionSort _ _
    have hxlen : (List.insertionSort (· ≤ ·) values).length = values.length :=
      List.length_insertionSort _ _
    -- the quantile fractions, split into the first mb and the last (= 1)
    have hqs : (List.range (mb + 1)).map (fun i : ℕ => (i : ℚ) / (mb : ℚ)) =
        ((List.range mb).map (fun i : ℕ => (i : ℚ) / (mb : ℚ))) ++ [1] := by
      rw [List.range_succ, List.map_append]
      simp only [List.map_cons, List.map_nil]
      rw [div_self (Nat.cast_ne_zero.mpr (by omega))]
    have hbnds : binBoundaries values mb =
        (((List.range mb).map (fun i : ℕ => (i : ℚ) / (mb : ℚ))).map F) ++ [F 1] := by
      unfold binBoundaries
      rw [hmap, hqs, List.map_append]
      simp
    have hdbs : digitizeBoundaries values mb =
        (((List.range mb).map (fun i : ℕ => (i : ℚ) / (mb : ℚ))).map F) ++ [F 1 + 1] := by
      unfold digitizeBoundaries
      rw [hbnds, List.dropLast_concat, List.getLast?_concat]
      simp
    -- bounds on every value relative to the sorted extremes
    have hvx : ∀ v ∈ values,
        (List.insertionSort (· ≤ ·) values).getD 0 0 ≤ v ∧
        v ≤ (List.insertionSort (· ≤ ·) values).getD (values.length - 1) 0 := by
      intro v hv
      have hv' : v ∈ List.insertionSort (· ≤ ·) values := hperm.mem_iff.mpr hv
      refine ⟨sorted_getD_zero_le (List.sorted_insertionSort _ _) hv', ?_⟩
      have := sorted_le_getD_last (List.sorted_insertionSort _ _) hv'
      rwa [hxlen] at this
    -- the digit of every value lies in [1, mb]
    have hdig : ∀ v ∈ values, 1 ≤ np_digitize v (digitizeBoundaries values mb) ∧
        np_digitize v (digitizeBoundaries values mb) ≤ mb := by
      intro v hv
      obtain ⟨hv0, hvlast⟩ := hvx v hv
      have hnb : ¬ (F 1 + 1 ≤ v) := by
        rw [hF1]
        linarith
      have hlast0 : List.countP (fun b => decide (b ≤ v)) [F 1 + 1] = 0 := by
        simp [List.countP, List.countP.go, hnb]
      rw [hdbs]
      unfold np_digitize
      rw [List.countP_append, hlast0]
      constructor
      · have hmem0 : F (((0 : ℕ) : ℚ) / (mb : ℚ)) ∈
            ((List.range mb).map (fun i : ℕ => (i : ℚ) / (mb : ℚ))).map F :=
          List.mem_map.mpr ⟨(((0 : ℕ) : ℚ) / (mb : ℚ)),
            List.mem_map.mpr ⟨0, List.mem_range.mpr (by omega), rfl⟩, rfl⟩
        have hpos : 0 < List.countP (fun b => decide (b ≤ v))
            (((List.range mb).map (fun i : ℕ => (i : ℚ) / (mb : ℚ))).map F) := by
          apply List.countP_pos_iff.mpr
          refine ⟨F (((0 : ℕ) : ℚ) / (mb : ℚ)), hmem0, ?_⟩
          have h00 : (((0 : ℕ) : ℚ) / (mb : ℚ)) = 0 := by norm_num
          rw [h00, hF0, decide_eq_true_eq]
          exact hv0
        omega
      · have hle := List.countP_le_length (p := fun b => decide (b ≤ v))
          (l := (((List.range mb).map (fun i : ℕ => (i : ℚ) / (mb : ℚ))).map F))
        simp only [List.length_map, List.length_range] at hle
        omega
    -- the digit of a maximal value is exactly mb
    have hdigmax : ∀ v ∈ values, (∀ u ∈ values, u ≤ v) →
        np_digitize v (digitizeBoundaries values mb) = mb := by
      intro v hv hmax
      obtain ⟨hv0, hvlast⟩ := hvx v hv
      have hxmax_mem : (List.insertionSort (· ≤ ·) values).getD (values.length - 1) 0
          ∈ values := by
        apply hperm.mem_iff.mp
        exact getD_mem (by omega)
      have hxmax_le : (List.insertionSort (· ≤ ·) values).getD (values.length - 1) 0 ≤ v :=
        hmax _ hxmax_mem
      have hnb : ¬ (F 1 + 1 ≤ v) := by
        rw [hF1]
        linarith
      have hlast0 : List.countP (fun b => decide (b ≤ v)) [F 1 + 1] = 0 := by
        simp [List.countP, List.countP.go, hnb]
      rw [hdbs]
      unfold np_digitize
      rw [List.countP_append, hlast0]
      have hall : List.countP (fun b => decide (b ≤ v))
          (((List.range mb).map (fun i : ℕ => (i : ℚ) / (mb : ℚ))).map F) =
          (((List.range mb).map (fun i : ℕ => (i : ℚ) / (mb : ℚ))).map F).length := by
        apply List.countP_eq_length.mpr
        intro a ha
        obtain ⟨q, _, rfl⟩ := List.mem_map.mp ha
        have hq := (hFr q).2
        rw [decide_eq_true_eq]
        linarith
      rw [hall]
      simp
    refine ⟨?_, ?_, ?_, ?_⟩
    · show (binBoundaries values mb).length = min B values.length + 1
      rw [hbnds, ← hmbmin]
      simp
    · show (values.map (fun v => np_digitize v (digitizeBoundaries values mb))).length =
        values.length
      simp
    · intro d hd
      obtain ⟨v, hv, rfl⟩ := List.mem_map.mp hd
      rw [← hmbmin]
      exact hdig v hv
    · intro i hi hmax
      have hgetd : (bin_evenly values B).2.getD i 0 =
          np_digitize (values.getD i 0) (digitizeBoundaries values mb) := by
        show (values.map (fun v => np_digitize v (digitizeBoundaries values mb))).getD i 0 = _
        rw [List.getD_eq_getElem _ _ (by simpa using hi), List.getElem_map,
          List.getD_eq_getElem _ _ hi]
      rw [hgetd, ← hmbmin]
      apply hdigmax _ (getD_mem hi)
      exact hmax
  · -- concrete instance: values = [1..10], max_bins = 5
    have hsort : List.insertionSort (· ≤ ·) ([1, 2, 3, 4, 5, 6, 7, 8, 9, 10] : List ℚ) = [1, 2, 3, 4, 5, 6, 7, 8, 9, 10] := by
      norm_num [List.insertionSort, List.orderedInsert]
    have hk0 : scipyK 10 (0) = 1 := by
      norm_num [scipyK, scipyAleph, min_def, max_def]
    have hg0 : scipyGamma 10 (0) = 0 := by
      norm_num [scipyGamma, scipyAleph, hk0, min_def, max_def]
    have hq0 : scipyQuantile ([1, 2, 3, 4, 5, 6, 7, 8, 9, 10] : List ℚ) 10 (0) = 1 := by
      rw [scipyQuantile, hk0, hg0]
      simp
    have hk1 : scipyK 10 (1/5) = 2 := by
      norm_num [scipyK, scipyAleph, min_def, max_def]
    have hg1 : scipyGamma 10 (1/5) = 11/25 := by
      norm_num [scipyGamma, scipyAleph, hk1, min_def, max_def]
    have hq1 : scipyQuantile ([1, 2, 3, 4, 5, 6, 7, 8, 9, 10] : List ℚ) 10 (1/5) = 61/25 := by
      rw [scipyQuantile, hk1, hg1]
      simp
      norm_num
    have hk2 : scipyK 10 (2/5) = 4 := by
      norm_num [scipyK, scipyAleph, min_def, max_def]
    have hg2 : scipyGamma 10 (2/5) = 12/25 := by
      norm_num [scipyGamma, scipyAleph, hk2, min_def, max_def]
    have hq2 : scipyQuantile ([1, 2, 3, 4, 5, 6, 7, 8, 9, 10] : List ℚ) 10 (2/5) = 112/25 := by
      rw [scipyQuantile, hk2, hg2]
      simp
      norm_num
    have hk3 : scipyK 10 (3/5) = 6 := by
      norm_num [scipyK, scipyAleph, min_def, max_def]
    have hg3 : scipyGamma 10 (3/5) = 13/25 := by
      norm_num [scipyGamma, scipyAleph, hk3, min_def, max_def]
    have hq3 : scipyQuantile ([1, 2, 3, 4, 5, 6, 7, 8, 9, 10] : List ℚ) 10 (3/5) = 163/25 := by
      rw [scipyQuantile, hk3, hg3]
      simp
      norm_num
    have hk4 : scipyK 10 (4/5) = 8 := by
      norm_num [scipyK, scipyAleph, min_def, max_def]
    have hg4 : scipyGamma 10 (4/5) = 14/25 := by
      norm_num [scipyGamma, scipyAleph, hk4, min_def, max_def]
    have hq4 : scipyQuantile ([1, 2, 3, 4, 5, 6, 7, 8, 9, 10] : List ℚ) 10 (4/5) = 214/25 := by
      rw [scipyQuantile, hk4, hg4]
      simp
      norm_num
    have hk5 : scipyK 10 (1) = 9 := by
      norm_num [scipyK, scipyAleph, min_def, max_def]
    have hg5 : scipyGamma 10 (1) = 1 := by
      norm_num [scipyGamma, scipyAleph, hk5, min_def, max_def]
    have hq5 : scipyQuantile ([1, 2, 3, 4, 5, 6, 7, 8, 9, 10] : List ℚ) 10 (1) = 10 := by
      rw [scipyQuantile, hk5, hg5]
      simp
    have hbounds : binBoundaries ([1, 2, 3, 4, 5, 6, 7, 8, 9, 10] : List ℚ) 5 =
        [1, 61/25, 112/25, 163/25, 214/25, 10] := by
      rw [binBoundaries, mquantiles]
      norm_num [hsort, List.range_succ, hq0, hq1, hq2, hq3, hq4, hq5]
    have hdb : digitizeBoundaries ([1, 2, 3, 4, 5, 6, 7, 8, 9, 10] : List ℚ) 5 =
        [1, 61/25, 112/25, 163/25, 214/25, 11] := by
      rw [digitizeBoundaries, hbounds]
      norm_num [List.dropLast, List.getLast?]
    have hd1 : np_digitize 1 [1, 61/25, 112/25, 163/25, 214/25, 11] = 1 := by
      norm_num [np_digitize, List.countP, List.countP.go]
    have hd2 : np_digitize 2 [1, 61/25, 112/25, 163/25, 214/25, 11] = 1 := by
      norm_num [np_digitize, List.countP, List.countP.go]
    have hd3 : np_digitize 3 [1, 61/25, 112/25, 163/25, 214/25, 11] = 2 := by
      norm_num [np_digitize, List.countP, List.countP.go]
    have hd4 : np_digitize 4 [1, 61/25, 112/25, 163/25, 214/25, 11] = 2 := by
      norm_num [np_digitize, List.countP, List.countP.go]
    have hd5 : np_digitize 5 [1, 61/25, 112/25, 163/25, 214/25, 11] = 3 := by
      norm_num [np_digitize, List.countP, List.countP.go]
    have hd6 : np_digitize 6 [1, 61/25, 112/25, 163/25, 214/25, 11] = 3 := by
      norm_num [np_digitize, List.countP, List.countP.go]
    have hd7 : np_digitize 7 [1, 61/25, 112/25, 163/25, 214/25, 11] = 4 := by
      norm_num [np_digitize, List.countP, List.countP.go]
    have hd8 : np_digitize 8 [1, 61/25, 112/25, 163/25, 214/25, 11] = 4 := by
      norm_num [np_digitize, List.countP, List.countP.go]
    have hd9 : np_digitize 9 [1, 61/25, 112/25, 163/25, 214/25, 11] = 5 := by
      norm_num [np_digitize, List.countP, List.countP.go]
    have hd10 : np_digitize 10 [1, 61/25, 112/25, 163/25, 214/25, 11] = 5 := by
      norm_num [np_digitize, List.countP, List.countP.go]
    have hdigits : (bin_evenly ([1, 2, 3, 4, 5, 6, 7, 8, 9, 10] : List ℚ) 5).2 =
        [1, 1, 2, 2, 3, 3, 4, 4, 5, 5] := by
      rw [bin_evenly]
      norm_num [hdb, hd1, hd2, hd3, hd4, hd5, hd6, hd7, hd8, hd9, hd10]
    intro b hb
    rw [hdigits]
    fin_cases hb <;> rfl

/-- C9.  Kernel-density PDF policy: `gen_pdf` builds its pooled sample by
replicating each unmasked value `round(probability * 100)` times (rounding
half to even as `np.around` does), excluding values whose rounded weight is
0; whenever the kernel-density fit over the pooled sample fails numerically
it returns `none` instead of raising; and the caller `save_pdf` maps every
(observation, variable) pair to an action — a skip-and-report exactly when
`gen_pdf` returned `none` — so the run continues over all variables. -/
theorem gen_pdf_policy :
    (∀ (values : List (Option ℚ)) (probabilities : List ℚ) (x : ℚ),
      (pooled_sample values probabilities).count x =
        ((values.zip probabilities).map (fun vp =>
          if vp.1 = some x then (np_around (100 * vp.2)).toNat else 0)).sum) ∧
    (∀ (kde : List ℚ → KdeFit) values probabilities grid,
      kde (pooled_sample values probabilities) = .fail →
      gen_pdf kde values probabilities grid = none) ∧
    (∀ (kde : List ℚ → KdeFit) (obsid v : String) values likelihood,
      save_pdf_one kde obsid v values likelihood = .skipReport obsid v ↔
      gen_pdf kde values likelihood
        (np_linspace ((pymin (values.filterMap id)).getD 0)
          ((pymax (values.filterMap id)).getD 0) PDF_NB_POINTS) = none) ∧
    (∀ (kde : List ℚ → KdeFit) (obsid : String) vars cols likelihood,
      (save_pdf kde obsid vars cols likelihood).length =
        min vars.length cols.length) := by
  refine ⟨?_, ?_, ?_, ?_⟩
  · intro values
    induction values with
    | nil => intro probabilities x; simp [pooled_sample]
    | cons v vt ih =>
      intro probabilities x
      cases probabilities with
      | nil => simp [pooled_sample]
      | cons p pt =>
        have hstep : pooled_sample (v :: vt) (p :: pt) =
            (match v with
             | none => pooled_sample vt pt
             | some a => List.replicate (np_around (100 * p)).toNat a
                 ++ pooled_sample vt pt) := rfl
        cases v with
        | none => simpa [hstep] using ih pt x
        | some a =>
          rw [hstep]
          by_cases hax : a = x
          · subst hax
            simp [List.count_append, List.count_replicate, ih pt a]
          · simp [List.count_append, List.count_replicate, hax, ih pt x,
              Ne.symm hax]
  · intro kde values probabilities grid h
    unfold gen_pdf
    rw [h]
  · intro kde obsid v values likelihood
    unfold save_pdf_one
    cases hg : gen_pdf kde values likelihood
      (np_linspace ((pymin (values.filterMap id)).getD 0)
        ((pymax (values.filterMap id)).getD 0) PDF_NB_POINTS) with
    | none => simp
    | some d => simp
  · intro kde obsid vars cols likelihood
    unfold save_pdf
    simp

/-- Witness for C9: probability `1/100` gives weight 1, probability `1/200`
rounds (half to even) to weight 0 and is excluded, the masked entry is
skipped; a kernel fit that always fails makes `gen_pdf` return `none` and
`save_pdf_one` report the skip while `save_pdf` still yields one action per
variable. -/
theorem gen_pdf_policy_witness :
    (pooled_sample [some 2, none, some 3] [1/100, 1, 1/200]).count 2 = 1 ∧
    (pooled_sample [some 2, none, some 3] [1/100, 1, 1/200]).count 3 = 0 ∧
    gen_pdf (fun _ => KdeFit.fail) [some 1] [1] [0] = none ∧
    save_pdf_one (fun _ => KdeFit.fail) "obs" "sfr" [some 1] [1] =
      .skipReport "obs" "sfr" ∧
    (save_pdf (fun _ => KdeFit.fail) "obs" ["sfr"] [[some 1]] [1]).length = 1 := by
  obtain ⟨hcount, hfail, hskip, hlen⟩ := gen_pdf_policy
  refine ⟨?_, ?_, ?_, ?_, ?_⟩
  · rw [hcount]
    norm_num [np_around]
    all_goals simp
  · rw [hcount]
    norm_num [np_around]
    all_goals simp
    norm_num [Int.fract]
  · exact hfail _ _ _ _ rfl
  · exact (hskip _ _ _ _ _).mpr (hfail _ _ _ _ rfl)
  · simpa using hlen (fun _ => KdeFit.fail) "obs" ["sfr"] [[some 1]] [1]

/-- Witness for C8: `values = [3, 1, 2]` with `max_bins = 2` gives 3
boundaries and 3 in-range assignments, and in the `[1..10]` instance the
last bin receives exactly 2 elements. -/
theorem bin_evenly_spec_witness :
    (bin_evenly [3, 1, 2] 2).1.length = 3 ∧
    (bin_evenly [3, 1, 2] 2).2.length = 3 ∧
    (bin_evenly [1, 2, 3, 4, 5, 6, 7, 8, 9, 10] 5).2.count 5 = 2 := by
  obtain ⟨hg, hc⟩ := bin_evenly_spec
  have h := hg [3, 1, 2] 2 (by simp) (by omega)
  refine ⟨?_, ?_, hc 5 (by simp)⟩
  · simpa using h.1
  · simpa using h.2.1

